import Mathlib

/-!
# Verification of the mack packaging codecs

Shallow embedding of the `ar` archive codec (package `ar`) and of the RPM
tag-header builder (package `rpm`) of the midbel/mack repository, together
with theorems settling the specification claims about them.

Byte streams are modelled as `List Nat` (each element a byte value); Go
integers are modelled as `Int`/`Nat` with explicit truncation where the
source converts between widths.  Go standard-library helpers used by the
source (`strconv.FormatInt`, `strconv.ParseInt`, `bytes.TrimSpace`,
`path.Base`) are embedded at their documented behaviour on the byte values
this repository produces and consumes (ASCII content; no underscore digit
separators, which never occur in the fixed-width numeric fields of these
formats).
-/

set_option autoImplicit false

namespace Mack

/-! ## Digit formatting and parsing (strconv.FormatInt / strconv.ParseInt) -/

/-- Little-endian base-`base` digits of `n`, with an explicit structural fuel
so that the definition reduces inside the kernel.  `fuel = n` always
suffices since the digit count of `n` is at most `n`. -/
def natDigitsRevFuel (base : Nat) : Nat → Nat → List Nat
  | 0, _ => []
  | fuel + 1, n =>
    if 2 ≤ base ∧ n ≠ 0 then n % base :: natDigitsRevFuel base fuel (n / base) else []

/-- Big-endian base-`base` digits of `n` (`[]` for `n = 0`). -/
def natDigitsBE (base n : Nat) : List Nat :=
  (natDigitsRevFuel base n n).reverse

/-- ASCII character for one digit, lowercase letters above 9, as in
`strconv.FormatInt`. -/
def digitChar (d : Nat) : Nat :=
  if d < 10 then 48 + d else 97 + (d - 10)

/-- `strconv.FormatUint(n, base)`: ASCII digits of `n`, `"0"` for zero. -/
def formatNat (base n : Nat) : List Nat :=
  if n = 0 then [48] else (natDigitsBE base n).map digitChar

/-- `strconv.FormatInt(v, base)`: a leading `'-'` for negative values. -/
def formatInt (base : Nat) (v : Int) : List Nat :=
  if v < 0 then 45 :: formatNat base (-v).toNat else formatNat base v.toNat

/-- Value of one ASCII digit character (`0-9`, `a-z`, `A-Z`), as accepted by
`strconv.ParseInt`'s digit loop. -/
def digitVal (c : Nat) : Option Nat :=
  if 48 ≤ c ∧ c ≤ 57 then some (c - 48)
  else if 97 ≤ c ∧ c ≤ 122 then some (c - 87)
  else if 65 ≤ c ∧ c ≤ 90 then some (c - 55)
  else none

/-- The digit loop of `strconv.ParseUint`: accumulate digits in the given
base, rejecting characters that are not digits of that base. -/
def parseDigitsGo (base : Nat) : List Nat → Nat → Option Nat
  | [], acc => some acc
  | c :: t, acc =>
    match digitVal c with
    | none => none
    | some d => if d < base then parseDigitsGo base t (acc * base + d) else none

/-- `strconv.ParseUint`'s digit loop from an empty accumulator.  An empty
digit string yields 0, matching Go's handling of the literal `"0"` whose
single character is consumed as the octal prefix. -/
def parseDigits (base : Nat) (s : List Nat) : Option Nat :=
  parseDigitsGo base s 0

/-- Final step of `strconv.ParseInt(s, 0, 64)`: parse the digits and apply
the sign and the 64-bit range check. -/
def finishParse (base : Nat) (s : List Nat) (neg : Bool) : Option Int :=
  match parseDigits base s with
  | none => none
  | some u =>
    if neg then if u ≤ 2 ^ 63 then some (-(u : Int)) else none
    else if u < 2 ^ 63 then some ((u : Int)) else none

/-- Base detection of `strconv.ParseInt(s, 0, 64)` after the sign: a `0b`,
`0o` or `0x` prefix (upper or lower case, with at least one digit after it)
selects base 2, 8 or 16; a bare leading `0` selects base 8; anything else is
decimal. -/
def parseUnsignedB0 (s : List Nat) (neg : Bool) : Option Int :=
  match s with
  | [] => none
  | c :: rest =>
    if c = 48 then
      match rest with
      | [] => finishParse 8 [] neg
      | c2 :: rest2 =>
        if rest2 ≠ [] ∧ (c2 = 98 ∨ c2 = 66) then finishParse 2 rest2 neg
        else if rest2 ≠ [] ∧ (c2 = 111 ∨ c2 = 79) then finishParse 8 rest2 neg
        else if rest2 ≠ [] ∧ (c2 = 120 ∨ c2 = 88) then finishParse 16 rest2 neg
        else finishParse 8 (c2 :: rest2) neg
    else finishParse 10 (c :: rest) neg

/-- `strconv.ParseInt(string(s), 0, 64)` on ASCII byte content: optional
sign, base detection, digits, 64-bit range check. -/
def parseIntBase0 (s : List Nat) : Option Int :=
  match s with
  | [] => none
  | c :: rest =>
    if c = 43 then parseUnsignedB0 rest false
    else if c = 45 then parseUnsignedB0 rest true
    else parseUnsignedB0 (c :: rest) false

/-- The base-`base` digit string of `n` reinterpreted as a decimal number:
this is the value `ParseInt(..., 0, 64)` recovers from a base-`base`
rendering that carries no base prefix. -/
def decValue (base n : Nat) : Nat :=
  (natDigitsBE base n).foldl (fun a d => a * 10 + d) 0

/-! ## bytes.TrimSpace and path.Base -/

/-- ASCII whitespace, the fragment of `unicode.IsSpace` relevant to the
byte values these headers contain. -/
def isSpace (c : Nat) : Bool :=
  c == 32 || (decide (9 ≤ c) && decide (c ≤ 13))

/-- `bytes.TrimSpace` on ASCII content: drop whitespace from both ends. -/
def trimSpace (s : List Nat) : List Nat :=
  ((s.dropWhile fun c => isSpace c).reverse.dropWhile fun c => isSpace c).reverse

/-- `path.Base`: `"."` for the empty path, otherwise strip trailing slashes
and keep everything after the last remaining slash (`"/"` if nothing is
left). -/
def pathBase (p : List Nat) : List Nat :=
  if p = [] then [46]
  else
    let q := (p.reverse.dropWhile fun c => c == 47).reverse
    if q = [] then [47]
    else (q.reverse.takeWhile fun c => c != 47).reverse

/-! ## The ar archive codec (package `ar`, src/unnamed/part_000) -/

namespace Ar

/-- `ar.Header`: one archive member's metadata.  `modTime` is the Unix
timestamp in whole seconds (`time.Time` at the one-second granularity the
wire format stores). -/
structure Header where
  name : List Nat
  uid : Int
  gid : Int
  mode : Int
  length : Int
  modTime : Int
deriving DecidableEq

/-- The `magic` variable: the bytes of `"!<arch>"`. -/
def arMagic : List Nat := [33, 60, 97, 114, 99, 104, 62]

/-- The `linefeed` variable: the 2-byte entry trailer `{0x60, 0x0A}`. -/
def linefeed : List Nat := [96, 10]

/-- `writeHeaderField`: the text left-justified and space-padded to width
`n`.  (Go panics via `strings.Repeat` when the text is longer than the
field; the embedding is used only under that bound.) -/
def writeHeaderField (s : List Nat) (n : Nat) : List Nat :=
  s ++ List.replicate (n - s.length) 32

/-- `Writer.WriteHeader`: the six fixed-width fields — base name plus `/`
(16), modification time in decimal (12), uid (6), gid (6), mode in octal
(8), length in decimal (10) — followed by the 2-byte trailer. -/
def Header.encode (h : Header) : List Nat :=
  writeHeaderField (Mack.pathBase h.name ++ [47]) 16
    ++ (writeHeaderField (Mack.formatInt 10 h.modTime) 12
    ++ (writeHeaderField (Mack.formatInt 10 h.uid) 6
    ++ (writeHeaderField (Mack.formatInt 10 h.gid) 6
    ++ (writeHeaderField (Mack.formatInt 8 h.mode) 8
    ++ (writeHeaderField (Mack.formatInt 10 h.length) 10
    ++ linefeed)))))

/-- `Writer.Write`: the bytes emitted to the sink for one payload write —
the payload followed by one `0x0A` pad byte when its length is odd.  (The
method's return value is the logical payload length.) -/
def writeData (bs : List Nat) : List Nat :=
  bs ++ (if bs.length % 2 = 1 then [10] else [])

/-- Everything `NewWriter` + `WriteHeader` + `Write` emit for a one-entry
archive: magic prologue, header, payload with pad. -/
def writerStream (h : Header) (payload : List Nat) : List Nat :=
  arMagic ++ [10] ++ (Header.encode h ++ writeData payload)

/-- `ar.Reader`: the remaining byte stream, the current header (`hdr`,
`none` when no successful `Next` happened), and the sticky error flag. -/
structure Reader where
  stream : List Nat
  hdr : Option Header
  err : Bool
deriving DecidableEq

/-- `NewReader`: peek 7 bytes, compare with the magic, then discard 8
bytes (magic plus newline).  `none` models every error return (short
input or `ErrMagic`). -/
def newReader (s : List Nat) : Option Reader :=
  if s.length < 7 then none
  else if s.take 7 ≠ arMagic then none
  else if s.length < 8 then none
  else some ⟨s.drop 8, none, false⟩

/-- `readHeaderField`: `io.ReadFull` of `n` bytes followed by
`bytes.TrimSpace`; fails when fewer than `n` bytes remain. -/
def readHeaderField (s : List Nat) (n : Nat) : Option (List Nat × List Nat) :=
  if n ≤ s.length then some (Mack.trimSpace (s.take n), s.drop n) else none

/-- The read-then-`ParseInt(…, 0, 64)` step shared by `readModTime` and the
four fields of `readFileInfos`. -/
def readIntField (s : List Nat) (n : Nat) : Option (Int × List Nat) :=
  match readHeaderField s n with
  | none => none
  | some (f, s1) =>
    match Mack.parseIntBase0 f with
    | none => none
    | some v => some (v, s1)

/-- Result of decoding the six fixed-width fields in `Reader.Next`
(`readFilename`, `readModTime`, `readFileInfos`).  On failure the recorded
stream is the position before the failing field (the dead error state; no
observable behaviour of the program depends on it). -/
inductive FieldsRes where
  | err (rest : List Nat)
  | ok (h : Header) (rest : List Nat)
deriving DecidableEq

/-- The field-decoding portion of `Reader.Next`: name (16), modification
time (12), uid (6), gid (6), mode (8), length (10), in source order. -/
def decodeHeaderFields (s : List Nat) : FieldsRes :=
  match readHeaderField s 16 with
  | none => .err s
  | some (nm, s1) =>
    match readIntField s1 12 with
    | none => .err s1
    | some (t, s2) =>
      match readIntField s2 6 with
      | none => .err s2
      | some (u, s3) =>
        match readIntField s3 6 with
        | none => .err s3
        | some (g, s4) =>
          match readIntField s4 8 with
          | none => .err s4
          | some (m, s5) =>
            match readIntField s5 10 with
            | none => .err s5
            | some (len, s6) => .ok ⟨nm, u, g, m, len, t⟩ s6

/-- The four ways `Reader.Next` can return: `(nil, io.EOF)`; `(h, nil)`;
`(nil, err)` with a non-nil error; and `(nil, nil)` — the outcome of the
trailer-mismatch branch, which returns the nil error of the successful
trailer read. -/
inductive NextResult where
  | eof
  | ok (h : Header) (r : Reader)
  | fail (r : Reader)
  | nilnil (r : Reader)
deriving DecidableEq

/-- `Reader.Next`: sticky-error check, 16-byte peek (fewer bytes available
signals `io.EOF`), the six fields, then a 2-byte read compared against the
trailer.  The trailer read is modelled as returning `min 2 available`
bytes into a zero-initialised buffer, and an `io.EOF` error when nothing is
available.  On a mismatching trailer the source returns `nil, err` where
`err` is the nil error of the successful read — the `nilnil` outcome. -/
def Reader.next (r : Reader) : NextResult :=
  if r.err then .fail r
  else if r.stream.length < 16 then .eof
  else
    match decodeHeaderFields r.stream with
    | .err s' => .fail ⟨s', r.hdr, true⟩
    | .ok h s6 =>
      if s6.length = 0 then .fail ⟨s6, r.hdr, false⟩
      else
        let avail := min 2 s6.length
        let bs := s6.take avail ++ List.replicate (2 - avail) 0
        if bs = linefeed then .ok h ⟨s6.drop avail, some h, false⟩
        else .nilnil ⟨s6.drop avail, r.hdr, false⟩

/-- The three ways `Reader.Read` can end: a nil-pointer panic (no prior
successful `Next`, or a negative declared length passed to `make`), a
return with a non-nil error, or a successful return of the copied bytes. -/
inductive ReadResult where
  | crash
  | errRes (data : List Nat) (r : Reader)
  | okRes (data : List Nat) (r : Reader)
deriving DecidableEq

/-- `Reader.Read` with a caller buffer of `bufLen` bytes: sticky-error
check, then `make([]byte, r.hdr.Length)` — a nil dereference when `hdr` is
nil — then `io.ReadFull` of the declared length, a 1-byte discard when the
length is odd, and `copy(bs, vs[:n])` into the caller's buffer. -/
def Reader.read (r : Reader) (bufLen : Nat) : ReadResult :=
  if r.err then .errRes [] r
  else
    match r.hdr with
    | none => .crash
    | some h =>
      if h.length < 0 then .crash
      else
        let L := h.length.toNat
        if r.stream.length < L then
          .errRes (r.stream.take bufLen) ⟨[], r.hdr, true⟩
        else
          let vs := r.stream.take L
          let s1 := r.stream.drop L
          let s2 := if L % 2 = 1 then s1.drop 1 else s1
          .okRes (vs.take bufLen) ⟨s2, r.hdr, false⟩

/-- How `List` can end: returning the collected headers, returning a
non-nil error, panicking (the nil-header dereference), or exhausting the
modelling fuel (never reached at the fuel `arList` supplies). -/
inductive ListResult where
  | ok (hs : List Header)
  | errRes
  | crash
  | fuelOut
deriving DecidableEq

/-- The loop of `List`: `Next`, break on `io.EOF`, append the header, skip
the payload with `io.CopyN(ioutil.Discard, r, h.Length)`.  A `Next` outcome
other than `ok`/`eof` leaves `h` nil and the subsequent `h.Length`
dereference panics.  `CopyN` is modelled by a single `Reader.Read` call
(faithful for entries below `io.Copy`'s 32 KiB buffer; a negative declared
length makes `CopyN` report `io.EOF` without reading). -/
def listLoop : Nat → Reader → List Header → ListResult
  | 0, _, _ => .fuelOut
  | fuel + 1, r, acc =>
    match r.next with
    | .eof => .ok acc
    | .fail _ => .crash
    | .nilnil _ => .crash
    | .ok h r1 =>
      if h.length < 0 then .errRes
      else if h.length = 0 then listLoop fuel r1 (acc ++ [h])
      else
        match r1.read h.length.toNat with
        | .crash => .crash
        | .errRes _ _ => .errRes
        | .okRes _ r2 => listLoop fuel r2 (acc ++ [h])

/-- `ar.List` on an in-memory stream: open the reader over the bytes and
walk the archive.  Each loop iteration that continues consumes at least 60
bytes, so `length + 1` fuel can never run out. -/
def arList (s : List Nat) : ListResult :=
  match newReader s with
  | none => .errRes
  | some r => listLoop (s.length + 1) r []

end Ar

/-! ## The RPM tag-header builder (package `rpm`, src/rpm/rpm.go) -/

namespace Rpm

/-- Big-endian bytes of `binary.Write(w, binary.BigEndian, int8(v))`. -/
def int8be (v : Int) : List Nat :=
  [(v.emod 256).toNat]

/-- Big-endian bytes of an `int16` write: the value truncated to 16 bits. -/
def int16be (v : Int) : List Nat :=
  [(v.emod 65536).toNat / 256 % 256, (v.emod 65536).toNat % 256]

/-- Big-endian bytes of an `int32` write: the value truncated to 32 bits. -/
def int32be (v : Int) : List Nat :=
  [(v.emod 4294967296).toNat / 16777216 % 256,
   (v.emod 4294967296).toNat / 65536 % 256,
   (v.emod 4294967296).toNat / 256 % 256,
   (v.emod 4294967296).toNat % 256]

/-- Big-endian bytes of an `int64` write: the value truncated to 64 bits. -/
def int64be (v : Int) : List Nat :=
  [(v.emod 18446744073709551616).toNat / 72057594037927936 % 256,
   (v.emod 18446744073709551616).toNat / 281474976710656 % 256,
   (v.emod 18446744073709551616).toNat / 1099511627776 % 256,
   (v.emod 18446744073709551616).toNat / 4294967296 % 256,
   (v.emod 18446744073709551616).toNat / 16777216 % 256,
   (v.emod 18446744073709551616).toNat / 65536 % 256,
   (v.emod 18446744073709551616).toNat / 256 % 256,
   (v.emod 18446744073709551616).toNat % 256]

/-- Modelled from the spec: the `EntryType` enumeration (declared in a file
of this repository outside src/) in the spec's order — null, char,
int8/16/32/64, string, binary blob, string-array, localized-string — with
the standard RPM numeric values.  Only `Int32`, `String` and `Binary` are
exercised by this core.  The names shadow the Lean core types of the same
names inside this namespace only. -/
def Int8 : Int := 2

/-- Modelled from the spec: `EntryType` value for 16-bit integers. -/
def Int16 : Int := 3

/-- Modelled from the spec: `EntryType` value for 32-bit integers. -/
def Int32 : Int := 4

/-- Modelled from the spec: `EntryType` value for 64-bit integers. -/
def Int64 : Int := 5

/-- Modelled from the spec: `EntryType` value for null-terminated strings. -/
def String : Int := 6

/-- Modelled from the spec: `EntryType` value for raw binary blobs. -/
def Binary : Int := 7

/-- Signature-header tag constants of src/rpm/rpm.go lines 26-33. -/
def SigBase : Int := 256

/-- `SigLength = 1000`. -/
def SigLength : Int := 1000

/-- `SigPGP = 1002`. -/
def SigPGP : Int := 1002

/-- `SigMD5 = 1004`. -/
def SigMD5 : Int := 1004

/-- `SigSha1 = SigBase + 13`. -/
def SigSha1 : Int := SigBase + 13

/-- `SigPayloadSize = 1007`. -/
def SigPayloadSize : Int := 1007

/-- `MagicHDR = 0x008eade8`. -/
def MagicHDR : Int := 9350632

/-- The closed set of `Field` implementations of src/rpm/rpm.go: a raw
binary field, a fixed-width integer field, and a null-terminated string
field. -/
inductive Field where
  | binarray (tag : Int) (value : List Nat)
  | number (tag : Int) (kind : Int) (value : Int)
  | varchar (tag : Int) (value : List Nat)
deriving DecidableEq

/-- `Skip()`: empty string and binary fields are omitted; integer fields
never are. -/
def Field.skip : Field → Bool
  | .binarray _ v => v.length == 0
  | .number _ _ _ => false
  | .varchar _ v => v.length == 0

/-- `Tag()`. -/
def Field.tag : Field → Int
  | .binarray t _ => t
  | .number t _ _ => t
  | .varchar t _ => t

/-- `Type()`: `Binary` for blobs, the declared kind for numbers, `String`
for strings. -/
def Field.type : Field → Int
  | .binarray _ _ => Binary
  | .number _ k _ => k
  | .varchar _ _ => String

/-- `Len()`: byte count for binary fields, element count 1 otherwise. -/
def Field.len : Field → Int
  | .binarray _ v => (v.length : Int)
  | .number _ _ _ => 1
  | .varchar _ _ => 1

/-- `Bytes()`: raw bytes for blobs; a big-endian integer sized to the
declared kind for numbers (an unknown kind writes nothing, as Go's empty
switch default); the string bytes plus one `0` terminator for strings. -/
def Field.bytes : Field → List Nat
  | .binarray _ v => v
  | .number _ k v =>
    if k = Int8 then int8be v
    else if k = Int16 then int16be v
    else if k = Int32 then int32be v
    else if k = Int64 then int64be v
    else []
  | .varchar _ v => v ++ [0]

/-- One 16-byte entry of the index block: tag, type, offset into the data
store, count. -/
structure IndexEntry where
  tag : Int
  type : Int
  offset : Nat
  count : Int
deriving DecidableEq

/-- Serialization of one index entry: four big-endian 32-bit words. -/
def indexEntryBytes (e : IndexEntry) : List Nat :=
  int32be e.tag ++ int32be e.type ++ int32be (e.offset : Int) ++ int32be e.count

/-- The loop of `writeFields`: walk the fields in order, skip the skippable
ones, record for each retained field an index entry whose offset is the
store length at insertion time, and append its bytes to the store. -/
def fieldsLoop : List Field → List Nat → List IndexEntry × List Nat
  | [], store => ([], store)
  | f :: fs, store =>
    if f.skip then fieldsLoop fs store
    else
      let e : IndexEntry := ⟨f.tag, f.type, store.length, f.len⟩
      let p := fieldsLoop fs (store ++ f.bytes)
      (e :: p.1, p.2)

/-- The fields `writeFields` retains: those whose `Skip()` is false. -/
def retained (fs : List Field) : List Field :=
  fs.filter fun f => !f.skip

/-- `writeFields`: the 8-byte prologue (`(MagicHDR<<8)|1` then a reserved
zero word), the retained-entry count, the store length, the index block,
the store, and — when `pad` is set and the total is not a multiple of 8 —
zero padding up to the next multiple of 8. -/
def writeFields (fs : List Field) (pad : Bool) : List Nat :=
  let p := fieldsLoop fs []
  let body := (p.1.map indexEntryBytes).flatten
  let meta :=
    int32be (MagicHDR * 256 + 1)
      ++ (int32be 0
      ++ (int32be (p.1.length : Int)
      ++ (int32be (p.2.length : Int)
      ++ (body ++ p.2))))
  if pad && (meta.length % 8 != 0) then
    meta ++ List.replicate (8 - meta.length % 8) 0
  else meta

/-- The signature field list built by `builder.Build` (src/rpm/rpm.go lines
77-86): `data` is the concatenation of the metadata block and the
compressed-payload block, and the three fields carry `data`'s length, its
MD5 digest and its SHA-1 digest.  The digest functions are parameters of
the embedding (Go's `crypto/md5` and `crypto/sha1`). -/
def buildSigFields (md5f shaf : List Nat → List Nat) (meta body : List Nat) : List Field :=
  let data := meta ++ body
  [Field.number SigLength Int32 (data.length : Int),
   Field.binarray SigMD5 (md5f data),
   Field.binarray SigSha1 (shaf data)]

/-- The compression stage of `builder.writeArchive` (src/rpm/rpm.go lines
139-144): `gz` is opened over the buffer `bz` with best compression, the
archive bytes are copied into `gz`, and `bz` is returned — `gz.Close()` is
never called.  `emitted bs` stands for the bytes present in `bz` after
writing `bs` into the still-open gzip writer; per the `compress/gzip`
documentation only `Close` flushes pending data and writes the 8-byte
footer (CRC-32 and length), so `emitted bs` is at least 8 bytes shorter
than the complete encoding that closing would produce. -/
def writeArchivePayload (emitted : List Nat → List Nat) (archive : List Nat) : List Nat :=
  emitted archive

/-- One source file handed to `writeArchive`: its archived name
(`f.String()`) and the content bytes streamed from `f.Src`. -/
structure SrcFile where
  name : List Nat
  content : List Nat
deriving DecidableEq

/-- The per-build accumulator of `builder` (src/rpm/rpm.go lines 49-51):
`md5sums` holds `fmt.Sprintf("%x", bs)` hex strings as byte lists. -/
structure BuilderAcc where
  md5sums : List (List Nat)
  filenames : List (List Nat)
  sizes : List Int
deriving DecidableEq

/-- One lowercase hex digit, as `fmt.Sprintf("%x", …)` prints. -/
def hexDigit (d : Nat) : Nat :=
  if d < 10 then 48 + d else 87 + d

/-- `fmt.Sprintf("%x", bs)`: two lowercase hex digits per byte. -/
def hexBytes (bs : List Nat) : List Nat :=
  (bs.map fun b => [hexDigit (b / 16 % 16), hexDigit (b % 16)]).flatten

/-- `writeFile` (src/rpm/rpm.go lines 147-171): the content is streamed
into the cpio writer (the external collaborator) while tee-ing into an MD5
hash, and the function returns `s.Sum(nil)` — the digest, not the content. -/
def writeFileDigest (md5f : List Nat → List Nat) (content : List Nat) : List Nat :=
  md5f content

/-- The accumulator loop of `builder.writeArchive` (src/rpm/rpm.go lines
127-135): for each file append `int64(len(bs))` to `sizes`, the hex digest
to `md5sums` and the archived name to `filenames`, where `bs` is
`writeFile`'s return value. -/
def writeArchiveAcc (md5f : List Nat → List Nat) (files : List SrcFile) : BuilderAcc :=
  files.foldl
    (fun acc f =>
      let bs := writeFileDigest md5f f.content
      { md5sums := acc.md5sums ++ [hexBytes bs],
        filenames := acc.filenames ++ [f.name],
        sizes := acc.sizes ++ [(bs.length : Int)] })
    ⟨[], [], []⟩

end Rpm

/-! ## Supporting lemmas: digits, parsing, trimming -/

theorem dropWhile_of_head_false {p : Nat → Bool} (a : Nat) (s : List Nat)
    (ha : p a = false) : (a :: s).dropWhile p = a :: s := by
  rw [List.dropWhile_cons, ha, if_neg (by simp)]

theorem dropWhile_of_all_false {p : Nat → Bool} (s : List Nat)
    (hs : ∀ c ∈ s, p c = false) : s.dropWhile p = s := by
  cases s with
  | nil => rfl
  | cons a t => exact dropWhile_of_head_false a t (hs a (by simp))

theorem takeWhile_of_all_true {p : Nat → Bool} (s : List Nat)
    (hs : ∀ c ∈ s, p c = true) : s.takeWhile p = s := by
  induction s with
  | nil => rfl
  | cons a t ih =>
    rw [List.takeWhile_cons, hs a (by simp), if_pos rfl]
    exact congrArg (List.cons a) (ih fun c hc => hs c (by simp [hc]))

theorem isSpace_false_of_ge (c : Nat) (hc : 45 ≤ c) : isSpace c = false := by
  simp only [isSpace, Bool.or_eq_false_iff, Bool.and_eq_false_iff, beq_eq_false_iff_ne,
    decide_eq_false_iff_not]
  omega

theorem dropWhile_isSpace_replicate (k : Nat) (l : List Nat) :
    ((List.replicate k 32 ++ l).dropWhile fun c => isSpace c)
      = l.dropWhile fun c => isSpace c := by
  induction k with
  | zero => simp
  | succ j ih =>
    have h32 : isSpace 32 = true := rfl
    rw [List.replicate_succ, List.cons_append, List.dropWhile_cons, h32, if_pos rfl]
    exact ih

theorem trimSpace_pad (s : List Nat) (k : Nat) (hs : ∀ c ∈ s, isSpace c = false) :
    trimSpace (s ++ List.replicate k 32) = s := by
  unfold trimSpace
  cases s with
  | nil =>
    rw [List.nil_append]
    rw [show List.replicate k 32 = List.replicate k 32 ++ [] by simp]
    rw [dropWhile_isSpace_replicate]
    simp
  | cons a t =>
    have h1 : (((a :: t) ++ List.replicate k 32).dropWhile fun c => isSpace c)
        = (a :: t) ++ List.replicate k 32 := by
      rw [List.cons_append]
      exact dropWhile_of_head_false a _ (hs a (by simp))
    rw [h1, List.reverse_append, List.reverse_replicate, dropWhile_isSpace_replicate]
    rw [dropWhile_of_all_false ((a :: t).reverse)
      (fun c hc => hs c (List.mem_reverse.mp hc))]
    exact List.reverse_reverse _

theorem pathBase_eq_self (p : List Nat) (hne : p ≠ []) (hns : ∀ c ∈ p, c ≠ 47) :
    pathBase p = p := by
  unfold pathBase
  rw [if_neg hne]
  have h1 : (p.reverse.dropWhile fun c => c == 47) = p.reverse :=
    dropWhile_of_all_false _ fun c hc => by
      simpa using hns c (List.mem_reverse.mp hc)
  simp only [h1, List.reverse_reverse]
  rw [if_neg hne]
  rw [takeWhile_of_all_true p.reverse fun c hc => by
    simpa using hns c (List.mem_reverse.mp hc)]
  exact List.reverse_reverse _

theorem natDigitsRevFuel_zero (base fuel : Nat) : natDigitsRevFuel base fuel 0 = [] := by
  cases fuel <;> simp [natDigitsRevFuel]

theorem natDigitsRevFuel_step (base fuel n : Nat) (hb : 2 ≤ base) (h0 : n ≠ 0) :
    natDigitsRevFuel base (fuel + 1) n
      = n % base :: natDigitsRevFuel base fuel (n / base) := by
  simp [natDigitsRevFuel, hb, h0]

theorem digits_foldl_base (base : Nat) (hb : 2 ≤ base) :
    ∀ fuel n, n ≤ fuel →
      (natDigitsRevFuel base fuel n).reverse.foldl (fun a d => a * base + d) 0 = n := by
  intro fuel
  induction fuel with
  | zero =>
    intro n hn
    have : n = 0 := by omega
    subst this
    simp [natDigitsRevFuel]
  | succ f ih =>
    intro n hn
    by_cases h0 : n = 0
    · subst h0; simp [natDigitsRevFuel_zero]
    · rw [natDigitsRevFuel_step base f n hb h0, List.reverse_cons, List.foldl_append]
      have hdiv : n / base ≤ f := by
        have := Nat.div_lt_self (Nat.pos_of_ne_zero h0) hb
        omega
      rw [ih (n / base) hdiv]
      simp only [List.foldl_cons, List.foldl_nil]
      have := Nat.div_add_mod' n base
      omega

theorem decValue_ten (n : Nat) : decValue 10 n = n := by
  have := digits_foldl_base 10 (by omega) n n le_rfl
  simpa [decValue, natDigitsBE] using this

theorem digits_lt (base : Nat) (hb : 2 ≤ base) :
    ∀ fuel n d, d ∈ natDigitsRevFuel base fuel n → d < base := by
  intro fuel
  induction fuel with
  | zero => intro n d hd; simp [natDigitsRevFuel] at hd
  | succ f ih =>
    intro n d hd
    by_cases h0 : n = 0
    · subst h0; rw [natDigitsRevFuel_zero] at hd; simp at hd
    · rw [natDigitsRevFuel_step base f n hb h0] at hd
      rcases List.mem_cons.mp hd with h | h
      · subst h; exact Nat.mod_lt _ (by omega)
      · exact ih _ _ h

theorem natDigitsBE_lt (base : Nat) (hb : 2 ≤ base) (n d : Nat)
    (hd : d ∈ natDigitsBE base n) : d < base :=
  digits_lt base hb n n d (List.mem_reverse.mp hd)

theorem digits_length_le (base : Nat) (hb : 2 ≤ base) :
    ∀ fuel k n, n < base ^ k → (natDigitsRevFuel base fuel n).length ≤ k := by
  intro fuel
  induction fuel with
  | zero => intro k n _; simp [natDigitsRevFuel]
  | succ f ih =>
    intro k n hn
    by_cases h0 : n = 0
    · subst h0; simp [natDigitsRevFuel_zero]
    · have hk : k ≠ 0 := by
        rintro rfl
        simp only [pow_zero] at hn
        omega
      obtain ⟨j, rfl⟩ : ∃ j, k = j + 1 := ⟨k - 1, by omega⟩
      rw [natDigitsRevFuel_step base f n hb h0]
      simp only [List.length_cons, Nat.add_le_add_iff_right]
      apply ih j
      have hpos : 0 < base := by omega
      exact (Nat.div_lt_iff_lt_mul hpos).mpr (by rw [← pow_succ]; exact hn)

theorem natDigitsBE_length_le (base : Nat) (hb : 2 ≤ base) (k n : Nat)
    (hn : n < base ^ k) : (natDigitsBE base n).length ≤ k := by
  simpa [natDigitsBE] using digits_length_le base hb n k n hn

theorem digits_getLast_ne_zero (base : Nat) (hb : 2 ≤ base) :
    ∀ fuel n, n ≠ 0 → n ≤ fuel →
      ∃ d, (natDigitsRevFuel base fuel n).getLast? = some d ∧ d ≠ 0 ∧ d < base := by
  intro fuel
  induction fuel with
  | zero => intro n h0 hn; omega
  | succ f ih =>
    intro n h0 hn
    rw [natDigitsRevFuel_step base f n hb h0]
    by_cases hq : n / base = 0
    · have hnb : n < base := by
        by_contra hge
        have : 0 < n / base := Nat.div_pos (by omega) (by omega)
        omega
      rw [hq, natDigitsRevFuel_zero]
      exact ⟨n % base, rfl, by rw [Nat.mod_eq_of_lt hnb]; exact h0,
        Nat.mod_lt _ (by omega)⟩
    · obtain ⟨d, hd, hdz, hdb⟩ := ih (n / base) hq
        (by have := Nat.div_lt_self (Nat.pos_of_ne_zero h0) hb; omega)
      refine ⟨d, ?_, hdz, hdb⟩
      cases hrec : natDigitsRevFuel base f (n / base) with
      | nil => rw [hrec] at hd; simp at hd
      | cons b l =>
        rw [hrec] at hd
        rw [List.getLast?_cons_cons]
        exact hd

theorem natDigitsBE_head (base : Nat) (hb : 2 ≤ base) (n : Nat) (h0 : n ≠ 0) :
    ∃ d t, natDigitsBE base n = d :: t ∧ d ≠ 0 ∧ d < base := by
  obtain ⟨d, hd, hdz, hdb⟩ := digits_getLast_ne_zero base hb n n h0 le_rfl
  have hh : (natDigitsBE base n).head? = some d := by
    rw [natDigitsBE, List.head?_reverse]
    exact hd
  cases hbe : natDigitsBE base n with
  | nil => rw [hbe] at hh; simp at hh
  | cons x t =>
    rw [hbe] at hh
    simp only [List.head?_cons, Option.some.injEq] at hh
    exact ⟨x, t, by rw [hh], hh ▸ hdz, hh ▸ hdb⟩

theorem foldl_dec_lt (l : List Nat) (hl : ∀ d ∈ l, d < 10) :
    ∀ acc, l.foldl (fun a d => a * 10 + d) acc < (acc + 1) * 10 ^ l.length := by
  induction l with
  | nil => intro acc; simp
  | cons d t ih =>
    intro acc
    simp only [List.foldl_cons, List.length_cons]
    have hd : d < 10 := hl d (by simp)
    have h1 := ih (fun c hc => hl c (by simp [hc])) (acc * 10 + d)
    have h2 : (acc * 10 + d + 1) * 10 ^ t.length ≤ (acc + 1) * 10 * 10 ^ t.length :=
      Nat.mul_le_mul_right _ (by omega)
    calc t.foldl (fun a d => a * 10 + d) (acc * 10 + d)
        < (acc * 10 + d + 1) * 10 ^ t.length := h1
      _ ≤ (acc + 1) * 10 * 10 ^ t.length := h2
      _ = (acc + 1) * 10 ^ (t.length + 1) := by ring

theorem decValue_lt_pow (base : Nat) (hb : 2 ≤ base) (hb10 : base ≤ 10) (k n : Nat)
    (hn : n < base ^ k) : decValue base n < 10 ^ k := by
  have hlen := natDigitsBE_length_le base hb k n hn
  have hd : ∀ d ∈ natDigitsBE base n, d < 10 :=
    fun d hd => lt_of_lt_of_le (natDigitsBE_lt base hb n d hd) hb10
  have hv := foldl_dec_lt (natDigitsBE base n) hd 0
  calc decValue base n < (0 + 1) * 10 ^ (natDigitsBE base n).length := hv
    _ = 10 ^ (natDigitsBE base n).length := by ring
    _ ≤ 10 ^ k := Nat.pow_le_pow_right (by omega) hlen

theorem digitChar_eq (d : Nat) (hd : d < 10) : digitChar d = 48 + d := by
  simp [digitChar, hd]

theorem digitVal_digitChar (d : Nat) (hd : d < 10) : digitVal (digitChar d) = some d := by
  rw [digitChar_eq d hd]
  unfold digitVal
  rw [if_pos (by omega)]
  congr 1
  omega

theorem parseDigitsGo_map (l : List Nat) (hl : ∀ d ∈ l, d < 10) :
    ∀ acc, parseDigitsGo 10 (l.map digitChar) acc
      = some (l.foldl (fun a d => a * 10 + d) acc) := by
  induction l with
  | nil => intro acc; rfl
  | cons d t ih =>
    intro acc
    have hd : d < 10 := hl d (by simp)
    rw [List.map_cons]
    unfold parseDigitsGo
    rw [digitVal_digitChar d hd]
    simp only [hd, if_pos]
    exact ih (fun c hc => hl c (by simp [hc])) (acc * 10 + d)

theorem parseDigits_map (l : List Nat) (hl : ∀ d ∈ l, d < 10) :
    parseDigits 10 (l.map digitChar) = some (l.foldl (fun a d => a * 10 + d) 0) :=
  parseDigitsGo_map l hl 0

theorem parseIntBase0_cons (c : Nat) (rest : List Nat) :
    parseIntBase0 (c :: rest)
      = if c = 43 then parseUnsignedB0 rest false
        else if c = 45 then parseUnsignedB0 rest true
        else parseUnsignedB0 (c :: rest) false := rfl

theorem parseUnsignedB0_ne48 (c : Nat) (rest : List Nat) (neg : Bool) (hc : c ≠ 48) :
    parseUnsignedB0 (c :: rest) neg = finishParse 10 (c :: rest) neg := by
  have : parseUnsignedB0 (c :: rest) neg
      = if c = 48 then
          (match rest with
           | [] => finishParse 8 [] neg
           | c2 :: rest2 =>
             if rest2 ≠ [] ∧ (c2 = 98 ∨ c2 = 66) then finishParse 2 rest2 neg
             else if rest2 ≠ [] ∧ (c2 = 111 ∨ c2 = 79) then finishParse 8 rest2 neg
             else if rest2 ≠ [] ∧ (c2 = 120 ∨ c2 = 88) then finishParse 16 rest2 neg
             else finishParse 8 (c2 :: rest2) neg)
        else finishParse 10 (c :: rest) neg := rfl
  rw [this, if_neg hc]

/-- `ParseInt(…, 0, 64)` inverts `FormatUint(…, base)` for bases up to 10,
recovering the digit string reinterpreted in base 10 (for base 10 this is
the original value; for base 8 it is `decValue 8 n`, since the rendering
carries no `0` prefix unless the value is zero). -/
theorem parseIntBase0_formatNat (base : Nat) (hb : 2 ≤ base) (hb10 : base ≤ 10) (n : Nat)
    (hn : decValue base n < 2 ^ 63) :
    parseIntBase0 (formatNat base n) = some ((decValue base n : Nat) : Int) := by
  by_cases h0 : n = 0
  · subst h0
    have hdv : decValue base 0 = 0 := by
      simp [decValue, natDigitsBE, natDigitsRevFuel]
    rw [hdv]
    simp [formatNat, parseIntBase0, parseUnsignedB0, finishParse, parseDigits, parseDigitsGo]
  · obtain ⟨d, t, hdt, hdz, hdb⟩ := natDigitsBE_head base hb n h0
    have hall : ∀ c ∈ natDigitsBE base n, c < 10 :=
      fun c hc => lt_of_lt_of_le (natDigitsBE_lt base hb n c hc) hb10
    have hfmt : formatNat base n = digitChar d :: t.map digitChar := by
      rw [formatNat, if_neg h0, hdt, List.map_cons]
    have hd10 : d < 10 := by
      have := hall d (by rw [hdt]; simp)
      exact this
    have hc : digitChar d = 48 + d := digitChar_eq d hd10
    rw [hfmt, parseIntBase0_cons, if_neg (by omega), if_neg (by omega),
      parseUnsignedB0_ne48 _ _ _ (by omega)]
    unfold finishParse
    rw [show digitChar d :: t.map digitChar = (d :: t).map digitChar by rw [List.map_cons]]
    rw [parseDigits_map (d :: t) (by rw [← hdt]; exact hall)]
    have hval : (d :: t).foldl (fun a d => a * 10 + d) 0 = decValue base n := by
      rw [decValue, hdt]
    rw [hval]
    simp only [Bool.false_eq_true, if_false]
    rw [if_pos hn]

/-- Decimal formatting of a nonnegative value parses back to that value. -/
theorem parse_format_dec (v : Int) (h0 : 0 ≤ v) (hv : v < 2 ^ 63) :
    parseIntBase0 (formatInt 10 v) = some v := by
  rw [formatInt, if_neg (by omega)]
  have hnat : decValue 10 v.toNat = v.toNat := decValue_ten v.toNat
  have := parseIntBase0_formatNat 10 (by omega) (by omega) v.toNat
    (by rw [hnat]; omega)
  rw [this, hnat]
  congr 1
  omega

/-- Octal formatting of a nonnegative value parses back to the octal digit
string read as decimal. -/
theorem parse_format_oct (v : Int) (h0 : 0 ≤ v) (hv : decValue 8 v.toNat < 2 ^ 63) :
    parseIntBase0 (formatInt 8 v) = some ((decValue 8 v.toNat : Nat) : Int) := by
  rw [formatInt, if_neg (by omega)]
  exact parseIntBase0_formatNat 8 (by omega) (by omega) v.toNat hv

theorem formatNat_length_le (base : Nat) (hb : 2 ≤ base) (k n : Nat) (hk : 1 ≤ k)
    (hn : n < base ^ k) : (formatNat base n).length ≤ k := by
  by_cases h0 : n = 0
  · subst h0; simpa [formatNat] using hk
  · rw [formatNat, if_neg h0, List.length_map]
    exact natDigitsBE_length_le base hb k n hn

theorem formatInt_length_le (base : Nat) (hb : 2 ≤ base) (k : Nat) (v : Int) (hk : 1 ≤ k)
    (h0 : 0 ≤ v) (hv : v.toNat < base ^ k) : (formatInt base v).length ≤ k := by
  rw [formatInt, if_neg (by omega)]
  exact formatNat_length_le base hb k v.toNat hk hv

theorem formatNat_chars (base n : Nat) : ∀ c ∈ formatNat base n, 48 ≤ c := by
  intro c hc
  rw [formatNat] at hc
  by_cases h0 : n = 0
  · rw [if_pos h0] at hc; simp at hc; omega
  · rw [if_neg h0] at hc
    obtain ⟨d, _, rfl⟩ := List.mem_map.mp hc
    unfold digitChar
    by_cases hd : d < 10
    · simp [hd]
    · simp only [hd, if_neg, if_false]
      omega

theorem formatInt_chars (base : Nat) (v : Int) : ∀ c ∈ formatInt base v, 45 ≤ c := by
  intro c hc
  rw [formatInt] at hc
  by_cases hv : v < 0
  · rw [if_pos hv] at hc
    rcases List.mem_cons.mp hc with h | h
    · omega
    · have := formatNat_chars base (-v).toNat c h; omega
  · rw [if_neg hv] at hc
    have := formatNat_chars base v.toNat c hc; omega

theorem formatInt_not_space (base : Nat) (v : Int) :
    ∀ c ∈ formatInt base v, isSpace c = false :=
  fun c hc => isSpace_false_of_ge c (formatInt_chars base v c hc)

/-! ## Supporting lemmas: the ar header codec -/

namespace Ar

theorem writeHeaderField_length (s : List Nat) (n : Nat) (hs : s.length ≤ n) :
    (writeHeaderField s n).length = n := by
  simp only [writeHeaderField, List.length_append, List.length_replicate]
  omega

theorem readHeaderField_append (a b : List Nat) (n : Nat) (ha : a.length = n) :
    readHeaderField (a ++ b) n = some (Mack.trimSpace a, b) := by
  unfold readHeaderField
  rw [if_pos (by simp [ha])]
  subst ha
  rw [List.take_left, List.drop_left]

theorem readHeaderField_field (s rest : List Nat) (n : Nat)
    (hlen : s.length ≤ n) (hchars : ∀ c ∈ s, Mack.isSpace c = false) :
    readHeaderField (writeHeaderField s n ++ rest) n = some (s, rest) := by
  rw [readHeaderField_append (writeHeaderField s n) rest n (writeHeaderField_length s n hlen)]
  rw [writeHeaderField, Mack.trimSpace_pad s _ hchars]

theorem readIntField_field (s rest : List Nat) (n : Nat) (v : Int)
    (hlen : s.length ≤ n) (hchars : ∀ c ∈ s, Mack.isSpace c = false)
    (hparse : Mack.parseIntBase0 s = some v) :
    readIntField (writeHeaderField s n ++ rest) n = some (v, rest) := by
  unfold readIntField
  rw [readHeaderField_field s rest n hlen hchars]
  dsimp only
  rw [hparse]

theorem readIntField_dec (v : Int) (rest : List Nat) (n k : Nat)
    (hk : 1 ≤ k) (hkn : k ≤ n) (h0 : 0 ≤ v) (hv : v.toNat < 10 ^ k)
    (hv63 : v < 2 ^ 63) :
    readIntField (writeHeaderField (Mack.formatInt 10 v) n ++ rest) n = some (v, rest) :=
  readIntField_field _ rest n v
    (le_trans (Mack.formatInt_length_le 10 (by omega) k v hk h0 hv) hkn)
    (Mack.formatInt_not_space 10 v)
    (Mack.parse_format_dec v h0 hv63)

theorem readIntField_oct (v : Int) (rest : List Nat) (n k : Nat)
    (hk : 1 ≤ k) (hkn : k ≤ n) (h0 : 0 ≤ v) (hv : v.toNat < 8 ^ k) (hk8 : k ≤ 8) :
    readIntField (writeHeaderField (Mack.formatInt 8 v) n ++ rest) n
      = some (((Mack.decValue 8 v.toNat : Nat) : Int), rest) := by
  have hdv : Mack.decValue 8 v.toNat < 10 ^ k :=
    Mack.decValue_lt_pow 8 (by omega) (by omega) k v.toNat hv
  have h63 : Mack.decValue 8 v.toNat < 2 ^ 63 := by
    have h1 : (10 : Nat) ^ k ≤ 10 ^ 8 := Nat.pow_le_pow_right (by omega) hk8
    have h2 : (10 : Nat) ^ 8 < 2 ^ 63 := by norm_num
    omega
  exact readIntField_field _ rest n _
    (le_trans (Mack.formatInt_length_le 8 (by omega) k v hk h0 hv) hkn)
    (Mack.formatInt_not_space 8 v)
    (Mack.parse_format_oct v h0 h63)

theorem decodeHeaderFields_encode (h : Header) (rest : List Nat)
    (hname : h.name ≠ [])
    (hnchars : ∀ c ∈ h.name, Mack.isSpace c = false ∧ c ≠ 47)
    (hnlen : h.name.length ≤ 15)
    (huid0 : 0 ≤ h.uid) (huid : h.uid < 1000000)
    (hgid0 : 0 ≤ h.gid) (hgid : h.gid < 1000000)
    (hmode0 : 0 ≤ h.mode) (hmode : h.mode < 16777216)
    (hlen0 : 0 ≤ h.length) (hlen : h.length < 10000000000)
    (ht0 : 0 ≤ h.modTime) (ht : h.modTime < 1000000000000) :
    decodeHeaderFields (Header.encode h ++ rest)
      = .ok ⟨h.name ++ [47], h.uid, h.gid,
          ((Mack.decValue 8 h.mode.toNat : Nat) : Int), h.length, h.modTime⟩
          (linefeed ++ rest) := by
  have hpb : Mack.pathBase h.name = h.name :=
    Mack.pathBase_eq_self h.name hname fun c hc => (hnchars c hc).2
  have hnspace : ∀ c ∈ h.name ++ [47], Mack.isSpace c = false := by
    intro c hc
    rcases List.mem_append.mp hc with hc | hc
    · exact (hnchars c hc).1
    · simp only [List.mem_singleton] at hc
      subst hc
      rfl
  rw [Header.encode, hpb]
  simp only [List.append_assoc]
  unfold decodeHeaderFields
  rw [readHeaderField_field (h.name ++ [47]) _ 16 (by simp; omega) hnspace]
  dsimp only
  rw [readIntField_dec h.modTime _ 12 12 (by omega) (by omega) ht0 (by omega) (by omega)]
  dsimp only
  rw [readIntField_dec h.uid _ 6 6 (by omega) (by omega) huid0 (by omega) (by omega)]
  dsimp only
  rw [readIntField_dec h.gid _ 6 6 (by omega) (by omega) hgid0 (by omega) (by omega)]
  dsimp only
  rw [readIntField_oct h.mode _ 8 8 (by omega) (by omega) hmode0 (by omega) (by omega)]
  dsimp only
  rw [readIntField_dec h.length _ 10 10 (by omega) (by omega) hlen0 (by omega) (by omega)]

theorem encode_length (h : Header)
    (hname : h.name ≠ [])
    (hnchars : ∀ c ∈ h.name, Mack.isSpace c = false ∧ c ≠ 47)
    (hnlen : h.name.length ≤ 15)
    (huid0 : 0 ≤ h.uid) (huid : h.uid < 1000000)
    (hgid0 : 0 ≤ h.gid) (hgid : h.gid < 1000000)
    (hmode0 : 0 ≤ h.mode) (hmode : h.mode < 16777216)
    (hlen0 : 0 ≤ h.length) (hlen : h.length < 10000000000)
    (ht0 : 0 ≤ h.modTime) (ht : h.modTime < 1000000000000) :
    (Header.encode h).length = 60 := by
  have hpb : Mack.pathBase h.name = h.name :=
    Mack.pathBase_eq_self h.name hname fun c hc => (hnchars c hc).2
  rw [Header.encode, hpb]
  simp only [List.length_append]
  rw [writeHeaderField_length _ 16 (by simp; omega),
    writeHeaderField_length _ 12
      (Mack.formatInt_length_le 10 (by omega) 12 h.modTime (by omega) ht0 (by omega)),
    writeHeaderField_length _ 6
      (Mack.formatInt_length_le 10 (by omega) 6 h.uid (by omega) huid0 (by omega)),
    writeHeaderField_length _ 6
      (Mack.formatInt_length_le 10 (by omega) 6 h.gid (by omega) hgid0 (by omega)),
    writeHeaderField_length _ 8
      (Mack.formatInt_length_le 8 (by omega) 8 h.mode (by omega) hmode0 (by omega)),
    writeHeaderField_length _ 10
      (Mack.formatInt_length_le 10 (by omega) 10 h.length (by omega) hlen0 (by omega))]
  rfl

theorem next_encode (h : Header) (rest : List Nat)
    (hname : h.name ≠ [])
    (hnchars : ∀ c ∈ h.name, Mack.isSpace c = false ∧ c ≠ 47)
    (hnlen : h.name.length ≤ 15)
    (huid0 : 0 ≤ h.uid) (huid : h.uid < 1000000)
    (hgid0 : 0 ≤ h.gid) (hgid : h.gid < 1000000)
    (hmode0 : 0 ≤ h.mode) (hmode : h.mode < 16777216)
    (hlen0 : 0 ≤ h.length) (hlen : h.length < 10000000000)
    (ht0 : 0 ≤ h.modTime) (ht : h.modTime < 1000000000000) :
    Reader.next ⟨Header.encode h ++ rest, none, false⟩
      = .ok ⟨h.name ++ [47], h.uid, h.gid,
          ((Mack.decValue 8 h.mode.toNat : Nat) : Int), h.length, h.modTime⟩
          ⟨rest, some ⟨h.name ++ [47], h.uid, h.gid,
            ((Mack.decValue 8 h.mode.toNat : Nat) : Int), h.length, h.modTime⟩, false⟩ := by
  have helen : (Header.encode h).length = 60 :=
    encode_length h hname hnchars hnlen huid0 huid hgid0 hgid hmode0 hmode hlen0 hlen ht0 ht
  have hdec := decodeHeaderFields_encode h rest hname hnchars hnlen huid0 huid hgid0 hgid
    hmode0 hmode hlen0 hlen ht0 ht
  unfold Reader.next
  rw [if_neg (by simp)]
  rw [if_neg (by simp only [List.length_append, helen, Nat.not_lt]; omega)]
  rw [hdec]
  dsimp only
  rw [if_neg (by simp [linefeed])]
  have havail : min 2 (linefeed ++ rest).length = 2 := by
    simp [linefeed]
  rw [havail]
  have htake : (linefeed ++ rest).take 2 ++ List.replicate (2 - 2) 0 = linefeed := by
    simp [linefeed]
  rw [htake, if_pos rfl]
  have hdrop : (linefeed ++ rest).drop 2 = rest := by simp [linefeed]
  rw [hdrop]

theorem read_after_writeData (h' : Header) (payload rest : List Nat)
    (hL : h'.length = (payload.length : Int)) :
    Reader.read ⟨writeData payload ++ rest, some h', false⟩ payload.length
      = .okRes payload ⟨rest, some h', false⟩ := by
  unfold Reader.read
  rw [if_neg (by simp)]
  dsimp only
  rw [if_neg (by omega)]
  have hLnat : h'.length.toNat = payload.length := by omega
  rw [hLnat, writeData, List.append_assoc]
  rw [if_neg (by simp)]
  rw [List.take_left, List.drop_left]
  rw [List.take_length]
  by_cases hpar : payload.length % 2 = 1
  · rw [if_pos hpar]
    simp only [hpar, if_pos]
    simp
  · rw [if_neg hpar]
    simp only [hpar, if_neg, if_false]
    simp

end Ar

/-! ## Supporting lemmas: the RPM tag-header encoder -/

namespace Rpm

theorem retained_cons_skip (f : Field) (fs : List Field) (hf : f.skip = true) :
    retained (f :: fs) = retained fs := by
  simp [retained, hf]

theorem retained_cons_keep (f : Field) (fs : List Field) (hf : f.skip = false) :
    retained (f :: fs) = f :: retained fs := by
  simp [retained, hf]

theorem fieldsLoop_cons_skip (f : Field) (fs : List Field) (store : List Nat)
    (hf : f.skip = true) : fieldsLoop (f :: fs) store = fieldsLoop fs store := by
  simp [fieldsLoop, hf]

theorem fieldsLoop_cons_keep (f : Field) (fs : List Field) (store : List Nat)
    (hf : f.skip = false) :
    fieldsLoop (f :: fs) store
      = (⟨f.tag, f.type, store.length, f.len⟩ :: (fieldsLoop fs (store ++ f.bytes)).1,
         (fieldsLoop fs (store ++ f.bytes)).2) := by
  simp [fieldsLoop, hf]

theorem fieldsLoop_store : ∀ (fs : List Field) (store : List Nat),
    (fieldsLoop fs store).2 = store ++ ((retained fs).map Field.bytes).flatten := by
  intro fs
  induction fs with
  | nil => intro store; simp [fieldsLoop, retained]
  | cons f fs ih =>
    intro store
    by_cases hf : f.skip = true
    · rw [fieldsLoop_cons_skip f fs store hf, retained_cons_skip f fs hf]
      exact ih store
    · have hf' : f.skip = false := by simpa using hf
      rw [fieldsLoop_cons_keep f fs store hf', retained_cons_keep f fs hf']
      simp only [List.map_cons, List.flatten_cons]
      rw [ih (store ++ f.bytes)]
      simp [List.append_assoc]

theorem fieldsLoop_entries_length : ∀ (fs : List Field) (store : List Nat),
    (fieldsLoop fs store).1.length = (retained fs).length := by
  intro fs
  induction fs with
  | nil => intro store; simp [fieldsLoop, retained]
  | cons f fs ih =>
    intro store
    by_cases hf : f.skip = true
    · rw [fieldsLoop_cons_skip f fs store hf, retained_cons_skip f fs hf]
      exact ih store
    · have hf' : f.skip = false := by simpa using hf
      rw [fieldsLoop_cons_keep f fs store hf', retained_cons_keep f fs hf']
      simp only [List.length_cons]
      rw [ih (store ++ f.bytes)]

theorem fieldsLoop_offset_get? : ∀ (fs : List Field) (store : List Nat) (i : Nat)
    (e : IndexEntry), (fieldsLoop fs store).1.get? i = some e →
    e.offset = store.length + (((retained fs).take i).map (fun f => f.bytes.length)).sum := by
  intro fs
  induction fs with
  | nil =>
    intro store i e he
    simp [fieldsLoop] at he
  | cons f fs ih =>
    intro store i e he
    by_cases hf : f.skip = true
    · rw [fieldsLoop_cons_skip f fs store hf] at he
      rw [retained_cons_skip f fs hf]
      exact ih store i e he
    · have hf' : f.skip = false := by simpa using hf
      rw [fieldsLoop_cons_keep f fs store hf'] at he
      rw [retained_cons_keep f fs hf']
      cases i with
      | zero =>
        simp only [List.get?_cons_zero, Option.some.injEq] at he
        subst he
        simp
      | succ j =>
        simp only [List.get?_cons_succ] at he
        rw [ih (store ++ f.bytes) j e he]
        simp only [List.take_succ_cons, List.map_cons, List.sum_cons, List.length_append]
        omega

theorem int32be_length (v : Int) : (int32be v).length = 4 := rfl

theorem drop12_take4 (a b c d tail : List Nat)
    (ha : a.length = 4) (hb : b.length = 4) (hc : c.length = 4) :
    ((a ++ (b ++ (c ++ (d ++ tail)))).drop 12).take 4 = (d ++ tail).take 4 := by
  rw [show (12 : Nat) = a.length + 8 by omega, List.drop_append]
  rw [show (8 : Nat) = b.length + 4 by omega, List.drop_append]
  rw [show (4 : Nat) = c.length + 0 by omega, List.drop_append]
  rw [List.drop_zero]

theorem take4_int32be (v : Int) (l : List Nat) : (int32be v ++ l).take 4 = int32be v := by
  rw [show (4 : Nat) = (int32be v).length from rfl, List.take_left]

theorem binarray_skip_false (t : Int) (v : List Nat) (hv : v ≠ []) :
    (Field.binarray t v).skip = false := by
  simp only [Field.skip, beq_eq_false_iff_ne, ne_eq]
  simpa [List.length_eq_zero] using hv

theorem writeArchiveAcc_fold (md5f : List Nat → List Nat)
    (hmd5 : ∀ bs, (md5f bs).length = 16) :
    ∀ (files : List SrcFile) (acc : BuilderAcc),
      files.foldl
        (fun acc f =>
          let bs := writeFileDigest md5f f.content
          { md5sums := acc.md5sums ++ [hexBytes bs],
            filenames := acc.filenames ++ [f.name],
            sizes := acc.sizes ++ [(bs.length : Int)] }) acc
      = ⟨acc.md5sums ++ files.map (fun f => hexBytes (md5f f.content)),
         acc.filenames ++ files.map SrcFile.name,
         acc.sizes ++ List.replicate files.length (16 : Int)⟩ := by
  intro files
  induction files with
  | nil => intro acc; simp
  | cons f fs ih =>
    intro acc
    simp only [List.foldl_cons]
    rw [ih]
    simp [writeFileDigest, hmd5, List.replicate_succ, List.append_assoc]

/-! ## Claim theorems: RPM builder -/

/-- Claim C1, counterexample: in the signature field list built by `Build`,
the SHA-1 field's tag is `SigBase + 13 = 269`, so the tag list is not
`[1000, 1004, 1013]` as the claim states. -/
theorem signature_sha1_tag_not_1013 :
    (buildSigFields (fun _ => List.replicate 16 0) (fun _ => List.replicate 20 0)
        [] []).map Field.tag ≠ [1000, 1004, 1013] := by
  decide

/-- Claim C1, amended: the three signature fields carry the tags
`SigLength = 1000`, `SigMD5 = 1004` and `SigSha1 = SigBase + 13 = 269`
(not 1013), in that order. -/
theorem signature_tags (md5f shaf : List Nat → List Nat) (meta body : List Nat) :
    (buildSigFields md5f shaf meta body).map Field.tag = [SigLength, SigMD5, SigSha1]
    ∧ SigLength = 1000 ∧ SigMD5 = 1004 ∧ SigSha1 = 269 :=
  ⟨rfl, rfl, rfl, rfl⟩

/-- Claim C2: the data store of the signature block built by `Build` is the
32-bit big-endian length `meta.length + body.length` followed by the MD5
digest and then the SHA-1 digest of the concatenation `meta ++ body` — the
metadata block followed by the compressed-payload block, not the
uncompressed payload. -/
theorem build_signature_over_concatenation (md5f shaf : List Nat → List Nat)
    (meta body : List Nat)
    (hmd5 : md5f (meta ++ body) ≠ []) (hsha : shaf (meta ++ body) ≠ []) :
    (fieldsLoop (buildSigFields md5f shaf meta body) []).2
      = int32be ((meta.length + body.length : Nat) : Int)
          ++ (md5f (meta ++ body) ++ shaf (meta ++ body)) := by
  rw [fieldsLoop_store]
  have hr : retained (buildSigFields md5f shaf meta body)
      = buildSigFields md5f shaf meta body := by
    unfold buildSigFields retained
    rw [List.filter_cons, List.filter_cons, List.filter_cons]
    simp [Field.skip, hmd5, hsha]
  rw [hr]
  have hb : (Field.number SigLength Int32 (((meta ++ body).length : Nat) : Int)).bytes
      = int32be ((meta.length + body.length : Nat) : Int) := by
    simp [Field.bytes, Int8, Int16, Int32]
  unfold buildSigFields
  simp only [List.map_cons, List.map_nil, List.flatten_cons, List.flatten_nil,
    List.nil_append, List.append_nil]
  rw [hb]
  simp [Field.bytes]

/-- Witness for `build_signature_over_concatenation` at concrete digest
functions and blocks. -/
theorem build_signature_over_concatenation_witness :
    (fieldsLoop (buildSigFields (fun _ => List.replicate 16 3)
        (fun _ => List.replicate 20 5) [1] [2, 2]) []).2
      = int32be 3 ++ (List.replicate 16 3 ++ List.replicate 20 5) := by
  have h := build_signature_over_concatenation (fun _ => List.replicate 16 3)
    (fun _ => List.replicate 20 5) [1] [2, 2] (by decide) (by decide)
  simpa using h

/-- Claim C3 (code bug): `writeArchive` copies the archive into the gzip
writer but never calls `gz.Close()`, so the buffer it returns is missing at
least the 8-byte gzip footer and is never the complete encoding of the
archive bytes. -/
theorem writeArchive_payload_incomplete (emitted complete : List Nat → List Nat)
    (hfooter : ∀ bs, (emitted bs).length + 8 ≤ (complete bs).length)
    (archive : List Nat) :
    writeArchivePayload emitted archive ≠ complete archive := by
  intro he
  have h1 := hfooter archive
  unfold writeArchivePayload at he
  rw [he] at h1
  omega

/-- Witness for `writeArchive_payload_incomplete` at a concrete writer. -/
theorem writeArchive_payload_incomplete_witness :
    writeArchivePayload (fun _ => []) [] ≠ List.replicate 8 0 := by
  have h := writeArchive_payload_incomplete (fun _ => []) (fun _ => List.replicate 8 0)
    (fun bs => by simp) []
  simpa using h

/-- Claim C8 (code bug): the build accumulator stores the archived name and
the hex digest of each file's content, but its `sizes` entry is
`int64(len(bs))` where `bs` is `writeFile`'s returned MD5 digest — always
16, not the number of content bytes streamed. -/
theorem acc_size_records_digest_length (md5f : List Nat → List Nat)
    (hmd5 : ∀ bs, (md5f bs).length = 16) (files : List SrcFile) :
    (writeArchiveAcc md5f files).sizes = List.replicate files.length (16 : Int)
  ∧ (writeArchiveAcc md5f files).filenames = files.map SrcFile.name
  ∧ (writeArchiveAcc md5f files).md5sums
      = files.map (fun f => hexBytes (md5f f.content)) := by
  unfold writeArchiveAcc
  rw [writeArchiveAcc_fold md5f hmd5 files ⟨[], [], []⟩]
  simp

/-- Witness for `acc_size_records_digest_length`: one 10-byte file is
recorded with size 16. -/
theorem acc_size_records_digest_length_witness :
    (writeArchiveAcc (fun _ => List.replicate 16 0)
        [⟨[97], List.replicate 10 48⟩]).sizes = [(16 : Int)]
    ∧ ((16 : Int) ≠ ((List.replicate 10 48 : List Nat).length : Int)) := by
  have h := acc_size_records_digest_length (fun _ => List.replicate 16 0)
    (fun bs => by simp) [⟨[97], List.replicate 10 48⟩]
  exact ⟨h.1, by decide⟩

/-- Claim C9: in `writeFields` the declared store length (the fourth
32-bit word of the emitted block) is the total serialized size of the
retained fields, and every index entry's offset is the cumulative store
size of the retained fields before it. -/
theorem writeFields_offset_invariant (fs : List Field) (pad : Bool) :
    ((writeFields fs pad).drop 12).take 4
        = int32be (((fieldsLoop fs []).2.length : Nat) : Int)
  ∧ (fieldsLoop fs []).2.length
        = ((retained fs).map (fun f => f.bytes.length)).sum
  ∧ ∀ (i : Nat) (hi : i < (fieldsLoop fs []).1.length),
      ((fieldsLoop fs []).1.get ⟨i, hi⟩).offset
        = (((retained fs).take i).map (fun f => f.bytes.length)).sum := by
  refine ⟨?_, ?_, ?_⟩
  · unfold writeFields
    dsimp only
    split
    · simp only [List.append_assoc]
      rw [drop12_take4 _ _ _ _ _ (int32be_length _) (int32be_length _) (int32be_length _),
        take4_int32be]
    · rw [drop12_take4 _ _ _ _ _ (int32be_length _) (int32be_length _) (int32be_length _),
        take4_int32be]
  · rw [fieldsLoop_store fs [], List.nil_append, List.length_flatten, List.map_map]
    rfl
  · intro i hi
    have h := fieldsLoop_offset_get? fs [] i ((fieldsLoop fs []).1.get ⟨i, hi⟩)
      (List.get?_eq_get hi)
    simpa using h

/-- Witness for `writeFields_offset_invariant`: the second retained field
of a concrete list sits at the offset equal to the first field's size. -/
theorem writeFields_offset_invariant_witness :
    ((fieldsLoop [Field.varchar 1000 [97], Field.number 1004 4 7] []).1.get
        ⟨1, by decide⟩).offset
      = (((retained [Field.varchar 1000 [97], Field.number 1004 4 7]).take 1).map
          (fun f => f.bytes.length)).sum :=
  (writeFields_offset_invariant [Field.varchar 1000 [97], Field.number 1004 4 7]
    true).2.2 1 (by decide)

end Rpm

/-! ## Claim theorems: ar codec -/

namespace Ar

/-- Claim C4, counterexample: the header with name `"f"` and mode 8 does
not decode back to itself — the decoded name is `"f/"` (the writer appends
the slash, the reader keeps it) and the decoded mode is 10 (the writer
formats octal, the reader parses the prefix-free digits as decimal). -/
theorem header_roundtrip_counterexample :
    Reader.next ⟨Header.encode ⟨[102], 0, 0, 8, 0, 0⟩, none, false⟩
        = .ok ⟨[102, 47], 0, 0, 10, 0, 0⟩
            ⟨[], some ⟨[102, 47], 0, 0, 10, 0, 0⟩, false⟩
    ∧ ([102, 47] : List Nat) ≠ [102] ∧ (10 : Int) ≠ 8 := by
  refine ⟨?_, by decide, by decide⟩
  have h := next_encode ⟨[102], 0, 0, 8, 0, 0⟩ [] (by decide) (by decide) (by decide)
    (by decide) (by decide) (by decide) (by decide) (by decide) (by decide) (by decide)
    (by decide) (by decide) (by decide)
  simpa using h

/-- Claim C4, amended: for every header whose fields fit their fixed
widths, decoding the encoded header reproduces uid, gid, length and the
modification time (at one-second granularity) exactly; the decoded name is
the original base name with `/` appended, and the decoded mode is the octal
rendering of the original mode reparsed as decimal — equal to the original
only when the mode is below 8. -/
theorem header_roundtrip_amended (h : Header) (rest : List Nat)
    (hname : h.name ≠ [])
    (hnchars : ∀ c ∈ h.name, Mack.isSpace c = false ∧ c ≠ 47)
    (hnlen : h.name.length ≤ 15)
    (huid0 : 0 ≤ h.uid) (huid : h.uid < 1000000)
    (hgid0 : 0 ≤ h.gid) (hgid : h.gid < 1000000)
    (hmode0 : 0 ≤ h.mode) (hmode : h.mode < 16777216)
    (hlen0 : 0 ≤ h.length) (hlen : h.length < 10000000000)
    (ht0 : 0 ≤ h.modTime) (ht : h.modTime < 1000000000000) :
    Reader.next ⟨Header.encode h ++ rest, none, false⟩
      = .ok ⟨h.name ++ [47], h.uid, h.gid,
          ((Mack.decValue 8 h.mode.toNat : Nat) : Int), h.length, h.modTime⟩
          ⟨rest, some ⟨h.name ++ [47], h.uid, h.gid,
            ((Mack.decValue 8 h.mode.toNat : Nat) : Int), h.length, h.modTime⟩, false⟩ :=
  next_encode h rest hname hnchars hnlen huid0 huid hgid0 hgid hmode0 hmode
    hlen0 hlen ht0 ht

/-- Witness for `header_roundtrip_amended` at a concrete header. -/
theorem header_roundtrip_amended_witness :
    Reader.next ⟨Header.encode ⟨[97, 98], 12, 34, 420, 7, 99⟩ ++ [1], none, false⟩
      = .ok ⟨[97, 98, 47], 12, 34,
          ((Mack.decValue 8 (420 : Int).toNat : Nat) : Int), 7, 99⟩
          ⟨[1], some ⟨[97, 98, 47], 12, 34,
            ((Mack.decValue 8 (420 : Int).toNat : Nat) : Int), 7, 99⟩, false⟩ :=
  header_roundtrip_amended ⟨[97, 98], 12, 34, 420, 7, 99⟩ [1] (by decide) (by decide)
    (by decide) (by decide) (by decide) (by decide) (by decide) (by decide) (by decide)
    (by decide) (by decide) (by decide) (by decide)

/-- Claim C5: writing one payload through the ar writer emits
`58 + 2 + L + (L mod 2)` bytes for the entry, and reading the stream back
through the ar reader returns exactly the original payload bytes. -/
theorem payload_roundtrip (h : Header) (payload rest : List Nat)
    (hname : h.name ≠ [])
    (hnchars : ∀ c ∈ h.name, Mack.isSpace c = false ∧ c ≠ 47)
    (hnlen : h.name.length ≤ 15)
    (huid0 : 0 ≤ h.uid) (huid : h.uid < 1000000)
    (hgid0 : 0 ≤ h.gid) (hgid : h.gid < 1000000)
    (hmode0 : 0 ≤ h.mode) (hmode : h.mode < 16777216)
    (hlen : h.length < 10000000000)
    (ht0 : 0 ≤ h.modTime) (ht : h.modTime < 1000000000000)
    (hL : h.length = (payload.length : Int)) :
    (Header.encode h ++ writeData payload).length
        = 58 + 2 + payload.length + payload.length % 2
  ∧ ∃ r0 h' r1 r2,
      newReader (writerStream h payload ++ rest) = some r0
      ∧ Reader.next r0 = .ok h' r1
      ∧ Reader.read r1 payload.length = .okRes payload r2 := by
  have hlen0 : 0 ≤ h.length := by omega
  have helen : (Header.encode h).length = 60 :=
    encode_length h hname hnchars hnlen huid0 huid hgid0 hgid hmode0 hmode
      hlen0 hlen ht0 ht
  constructor
  · rw [List.length_append, helen, writeData, List.length_append]
    by_cases hpar : payload.length % 2 = 1
    · rw [if_pos hpar]
      simp only [List.length_cons, List.length_nil]
      omega
    · rw [if_neg hpar]
      simp only [List.length_nil]
      omega
  · have hform : writerStream h payload ++ rest
        = arMagic ++ [10] ++ (Header.encode h ++ (writeData payload ++ rest)) := by
      rw [writerStream]
      simp [List.append_assoc]
    have hnr : newReader (arMagic ++ [10] ++ (Header.encode h ++ (writeData payload ++ rest)))
        = some ⟨Header.encode h ++ (writeData payload ++ rest), none, false⟩ := by
      have hm : arMagic ++ [10] ++ (Header.encode h ++ (writeData payload ++ rest))
          = 33 :: 60 :: 97 :: 114 :: 99 :: 104 :: 62 :: 10
              :: (Header.encode h ++ (writeData payload ++ rest)) := by
        simp [arMagic]
      rw [hm]
      unfold newReader
      rw [if_neg (by simp only [List.length_cons]; omega)]
      rw [if_neg (by intro hk; exact hk rfl)]
      rw [if_neg (by simp only [List.length_cons]; omega)]
      rfl
    have hnext := next_encode h (writeData payload ++ rest) hname hnchars hnlen huid0 huid
      hgid0 hgid hmode0 hmode hlen0 hlen ht0 ht
    have hread := read_after_writeData
      ⟨h.name ++ [47], h.uid, h.gid, ((Mack.decValue 8 h.mode.toNat : Nat) : Int),
        h.length, h.modTime⟩ payload rest hL
    exact ⟨_, _, _, _, hform ▸ hnr, hnext, hread⟩

/-- Witness for `payload_roundtrip` at a concrete header and payload. -/
theorem payload_roundtrip_witness :
    (Header.encode ⟨[102], 0, 0, 4, 3, 5⟩ ++ writeData [7, 8, 9]).length
        = 58 + 2 + ([7, 8, 9] : List Nat).length + ([7, 8, 9] : List Nat).length % 2
  ∧ ∃ r0 h' r1 r2,
      newReader (writerStream ⟨[102], 0, 0, 4, 3, 5⟩ [7, 8, 9] ++ []) = some r0
      ∧ Reader.next r0 = .ok h' r1
      ∧ Reader.read r1 ([7, 8, 9] : List Nat).length = .okRes [7, 8, 9] r2 :=
  payload_roundtrip ⟨[102], 0, 0, 4, 3, 5⟩ [7, 8, 9] [] (by decide) (by decide)
    (by decide) (by decide) (by decide) (by decide) (by decide) (by decide) (by decide)
    (by decide) (by decide) (by decide) (by decide)

/-- Claim C6 (code bug): on a header whose six fields decode but whose
2-byte trailer is `0x00 0x00` instead of `0x60 0x0A`, `Next` returns the
nil header together with the nil error of the successful trailer read —
`(nil, nil)`, not an error. -/
theorem next_trailer_mismatch_returns_nil_nil :
    Reader.next ⟨writeHeaderField [102] 16 ++ writeHeaderField [48] 12
        ++ writeHeaderField [48] 6 ++ writeHeaderField [48] 6
        ++ writeHeaderField [48] 8 ++ writeHeaderField [48] 10 ++ [0, 0], none, false⟩
      = .nilnil ⟨[], none, false⟩ := by
  decide

/-- Claim C7 (code bug): `List` checks `Next`'s error only against
`io.EOF`; on a stream whose modification-time field is not numeric, `Next`
returns a decode error, `List` appends the nil header and dereferences it
in `io.CopyN` — a panic, not an error return. -/
theorem list_crashes_on_decode_error :
    arList (arMagic ++ [10] ++ writeHeaderField [102] 16 ++ writeHeaderField [120] 12)
      = .crash := by
  decide

/-- Claim C10, counterexample: `Read` on a fresh reader (no prior `Next`)
dereferences the nil current header and panics instead of returning an
error. -/
theorem read_without_next_crashes_concrete :
    Reader.read ⟨[33, 60], none, false⟩ 4 = .crash := by
  decide

/-- Claim C10, amended: for every stream and buffer size, calling `Read`
with no current header (no prior successful `Next`) reaches
`make([]byte, r.hdr.Length)` with a nil `hdr` and panics; no error value is
returned and no payload bytes are read. -/
theorem read_without_next_crashes (stream : List Nat) (bufLen : Nat) :
    Reader.read ⟨stream, none, false⟩ bufLen = .crash := by
  unfold Reader.read
  rw [if_neg (by simp)]

end Ar

end Mack
